import Mathlib

/-!
Verification development for the `walkrepo` package (NiloCK/walk-repo).

The repository contains `src/walkrepo.go` with two revisions of the same
file separated by a document marker:

* revision 1 (lines 13-100): `WalkRepo` keeps one shared, mutable pattern
  slice `ps` that grows for the whole walk, and matches each entry with
  `matcher.Match(domain, file.IsDir())`, i.e. against the *current
  directory's* relative path rather than the entry's own path;
* revision 2 (lines 113-210): `WalkRepo` copies the inherited pattern
  slice per recursion frame (`localPatterns`), appends the frame's own
  `.gitignore` patterns, and matches each entry against the components of
  `filepath.Rel(root, filePath)`.

Both delegate pattern compilation and matching to the external
`go-git/.../plumbing/format/gitignore` package, which is not part of this
repository's sources; those parts are modelled from the specification
(its §4.1 pattern engine and §6 rule-file format), written to follow the
reverse-scan, domain-scoped semantics the spec describes.

The filesystem is modelled as a finite tree of named entries.  Directory
listing order is the order of the model's lists (the walker makes no
ordering promise beyond following the listing).  Paths are represented by
their components relative to the walk root; the absolute-path strings the
Go code builds with `filepath.Join` differ from `joinSep` only by the
constant root prefix, which no claim depends on.
-/

namespace WalkRepo

/-! ## Character-level glob matching (single path segment)

Modelled from the spec: §4.1 Compile — component matchers support `*`
(any run of characters), `?` (any single character) and `[...]` bracket
classes with ranges and `^` negation, following standard glob semantics
(the concrete engine is Go's `path/filepath.Match` as used by the
external gitignore package).  Backslash escapes are not modelled; no
claim exercises them.  A malformed bracket class makes the segment match
fail, mirroring the engine's treatment of `ErrBadPattern` as a non-match.
-/

/-- Fuelled worker for `classRanges` (each step consumes at least one
character, so fuel equal to the length of the input always suffices). -/
def classRangesF : Nat → List Char → Option (List (Char × Char) × List Char)
  | 0, _ => none
  | _ + 1, [] => none
  | fuel + 1, lo :: rest =>
    if lo = ']' ∨ lo = '-' then none
    else
      match rest with
      | '-' :: hi :: rest2 =>
        if hi = ']' ∨ hi = '-' then none
        else
          match rest2 with
          | ']' :: rest3 => some ([(lo, hi)], rest3)
          | _ => (classRangesF fuel rest2).map (fun r => ((lo, hi) :: r.1, r.2))
      | ']' :: rest2 => some ([(lo, lo)], rest2)
      | _ => (classRangesF fuel rest).map (fun r => ((lo, lo) :: r.1, r.2))

/-- Parse the body of a bracket class (the characters after `[`, with any
leading `^` already consumed): a nonempty sequence of ranges `c` or
`c-c`, terminated by `]`.  Returns the ranges and the rest of the
pattern, or `none` when malformed. -/
def classRanges (p : List Char) : Option (List (Char × Char) × List Char) :=
  classRangesF p.length p

/-- Match one character against a bracket class.  The input is the
pattern text after the opening `[`; returns whether the character is
accepted together with the pattern text after the closing `]`. -/
def classMatch (p : List Char) (c : Char) : Option (Bool × List Char) :=
  let neg := p.head? = some '^'
  let body := if neg then p.tail else p
  match classRanges body with
  | none => none
  | some (rs, rest) =>
    let inR := rs.any (fun r => decide (r.1 ≤ c) && decide (c ≤ r.2))
    some (if neg then !inR else inR, rest)

/-- Glob matching of a single pattern segment against a single path
component, fuelled so that the definition is structural (each step
shortens pattern + text, so `globFuel` below always suffices). -/
def globChars : Nat → List Char → List Char → Bool
  | 0, _, _ => false
  | _ + 1, [], s => s.isEmpty
  | fuel + 1, '*' :: p, s =>
    globChars fuel p s ||
      (match s with
       | [] => false
       | _ :: s2 => globChars fuel ('*' :: p) s2)
  | fuel + 1, '?' :: p, s =>
    (match s with
     | [] => false
     | _ :: s2 => globChars fuel p s2)
  | fuel + 1, '[' :: p, s =>
    (match s with
     | [] => false
     | c :: s2 =>
       match classMatch p c with
       | none => false
       | some (ok, p2) => ok && globChars fuel p2 s2)
  | fuel + 1, a :: p, s =>
    (match s with
     | [] => false
     | c :: s2 => a = c && globChars fuel p s2)

/-- Fuel bound for `globChars`: every step consumes at least one
character of the pattern or of the text. -/
def globFuel (p s : List Char) : Nat := p.length + s.length + 1

/-- Match one glob segment against one path component. -/
def segMatch (pat s : List Char) : Bool := globChars (globFuel pat s) pat s

/-! ## Compiled patterns

Modelled from the spec: §3 Pattern (domain, segments, negated,
directory-only) and §4.1 Compile, mirroring the external engine's
`ParsePattern`: strip a leading `!` (negation), trim unescaped trailing
spaces, strip a trailing `/` (directory-only), then split on `/`; a
pattern whose remaining text contains a `/` is matched against the
path's leading components (`isGlob`), otherwise its single segment may
match any one component of the path. -/

structure Pattern where
  domain : List String
  segs : List (List Char)
  inclusion : Bool
  dirOnly : Bool
  isGlob : Bool
deriving DecidableEq

/-- Split a character list on a separator character (Go `strings.Split`:
the empty input yields one empty field). -/
def splitChar (sep : Char) : List Char → List (List Char)
  | [] => [[]]
  | c :: rest =>
    if c = sep then [] :: splitChar sep rest
    else
      match splitChar sep rest with
      | [] => [[c]]
      | l :: ls => (c :: l) :: ls

/-- Remove trailing space characters. -/
def dropTrailingSpaces (l : List Char) : List Char :=
  (l.reverse.dropWhile (fun c => c = ' ')).reverse

/-- Boolean suffix test on character lists. -/
def endsWithList (suf l : List Char) : Bool := suf.isSuffixOf l

/-- Compile one raw rule line into a `Pattern` scoped to `domain`.
Modelled from the spec: §4.1 Compile (the engine's `ParsePattern`). -/
def parsePattern (raw : List Char) (domain : List String) : Pattern :=
  let incl := raw.head? = some '!'
  let p0 := if incl then raw.tail else raw
  let p1 := if endsWithList ['\\', ' '] p0 then p0 else dropTrailingSpaces p0
  let dOnly := endsWithList ['/'] p1
  let p2 := if dOnly then p1.dropLast else p1
  ⟨domain, splitChar '/' p2, incl, dOnly, p2.contains '/'⟩

/-- Result of evaluating one pattern on one path: no match, an exclusion
match, or an inclusion (negated-pattern) match. -/
inductive MatchResult where
  | noMatch
  | excl
  | incl
deriving DecidableEq

/-- Single-segment pattern evaluation: the segment may match any one
component of the path below the pattern's domain; a directory-only
pattern refuses a match on the final component of a non-directory. -/
def simpleScan (seg : List Char) (dOnly isDir : Bool) : List String → Bool
  | [] => false
  | name :: rest =>
    if segMatch seg name.data then
      if dOnly && !isDir && rest.isEmpty then false else true
    else simpleScan seg dOnly isDir rest

/-- Scan forward for the first component matching `seg` (the engine's
greedy handling of a `**` segment); returns the components after it. -/
def seekSeg (seg : List Char) : List String → Option (List String)
  | [] => none
  | e :: rest => if segMatch seg e.data then some rest else seekSeg seg rest

/-- Whether a segment contains two adjacent `*` characters (such a
segment never matches, mirroring the engine). -/
def hasStar2 : List Char → Bool
  | [] => false
  | '*' :: '*' :: _ => true
  | _ :: rest => hasStar2 rest

/-- Multi-segment (`isGlob`) pattern evaluation loop.  An empty segment
(from a leading `/`) is skipped; a final `**` segment ends the loop; a
non-final `**` lets the next segment match at any depth.  Returns the
accumulated matched flag and the unconsumed path components. -/
def globLoop : List (List Char) → List String → Bool → Bool → Bool × List String
  | [], path, _, matched => (matched, path)
  | seg :: rest, path, canT, matched =>
    if seg = [] then globLoop rest path false matched
    else if seg = ['*', '*'] then
      if rest = [] then (matched, path)
      else globLoop rest path true matched
    else if hasStar2 seg then (false, path)
    else
      match path with
      | [] => (false, [])
      | e :: ptail =>
        if canT then
          match seekSeg seg (e :: ptail) with
          | none => (false, [])
          | some rest2 => globLoop rest rest2 false true
        else
          if segMatch seg e.data then globLoop rest ptail false true
          else (false, e :: ptail)

/-- Evaluate an `isGlob` pattern against the path components below its
domain, applying the final directory-only adjustment. -/
def Pattern.globEval (p : Pattern) (path : List String) (isDir : Bool) : Bool :=
  let r := globLoop p.segs path false false
  if r.1 && p.dirOnly && !isDir && r.2.isEmpty then false else r.1

/-- Evaluate one pattern on a path.  Modelled from the spec: §4.1 Match —
a pattern is only considered when the path lies strictly below the
pattern's domain (its component prefix equals the domain); a match
yields `incl` for a negated pattern and `excl` otherwise. -/
def Pattern.eval (p : Pattern) (path : List String) (isDir : Bool) : MatchResult :=
  if path.length ≤ p.domain.length then .noMatch
  else if p.domain.isPrefixOf path then
    let below := path.drop p.domain.length
    let hit :=
      if p.isGlob then p.globEval below isDir
      else
        match p.segs with
        | [] => false
        | s :: _ => simpleScan s p.dirOnly isDir below
    if hit then (if p.inclusion then .incl else .excl) else .noMatch
  else .noMatch

/-- Decision contributed by one pattern: `some true` excludes, `some
false` re-includes, `none` when the pattern does not match. -/
def patternDecision (path : List String) (isDir : Bool) (p : Pattern) : Option Bool :=
  match p.eval path isDir with
  | .excl => some true
  | .incl => some false
  | .noMatch => none

/-- Decision of the last matching pattern of the list, scanning from the
end as the engine's `Matcher.Match` does. -/
def lastDecision (path : List String) (isDir : Bool) : List Pattern → Option Bool
  | [] => none
  | p :: rest =>
    match lastDecision path isDir rest with
    | some b => some b
    | none => patternDecision path isDir p

/-- Ordered-pattern-set matching.  Modelled from the spec: §4.1 Match —
the last matching pattern decides; no matching pattern means "not
excluded".  `true` means the path is excluded. -/
def matcherMatch (ps : List Pattern) (path : List String) (isDir : Bool) : Bool :=
  (lastDecision path isDir ps).getD false

/-! ## Filesystem model, visitors, and observable events -/

/-- A directory entry: a plain file with its text content, or a
subdirectory with its listing (in `Readdir` order). -/
inductive Entry where
  | file (name : String) (content : String)
  | dir (name : String) (children : List Entry)

def Entry.name : Entry → String
  | .file n _ => n
  | .dir n _ => n

def Entry.isDir : Entry → Bool
  | .file _ _ => false
  | .dir _ _ => true

/-- Result of `os.ReadFile` on the entry: the content for a plain file,
`none` (an I/O error) for a directory. -/
def Entry.contentOpt : Entry → Option String
  | .file _ c => some c
  | .dir _ _ => none

/-- Errors a walk can produce or a visitor can return.  `skipDir` is the
sentinel `filepath.SkipDir`; `userErr` stands for any other error value
a visitor may return; `ioErr` models a failing `os.ReadFile`;
`notGitignore` is the error of `parseFilePatterns` on a path without the
`.gitignore` suffix (walkrepo.go lines 78-80 and 187-189). -/
inductive WalkError where
  | skipDir
  | userErr (msg : String)
  | ioErr (path : String)
  | notGitignore (path : String)
deriving DecidableEq

/-- Observable actions of the walker: opening (and listing) a directory,
reading a rule file, and invoking the visitor with a path, the entry's
directory flag, and the error argument passed to the visitor.  Paths are
component lists relative to the walk root. -/
inductive Event where
  | openDir (path : List String)
  | readRules (path : List String)
  | visit (path : List String) (isDir : Bool) (errArg : Option WalkError)
deriving DecidableEq

def Event.path : Event → List String
  | .openDir p => p
  | .readRules p => p
  | .visit p _ _ => p

/-- A caller-supplied visitor (`filepath.WalkFunc`): receives the path,
the entry's directory flag, and an error argument, and returns `none` to
continue, `some .skipDir` to prune, or any other `some` error. -/
def Visitor := List String → Bool → Option WalkError → Option WalkError

/-- Join path components with `/` (the suffix-relevant part of the
`filepath.Join` chain the Go code performs; the constant absolute root
prefix is dropped). -/
def joinSep : List String → String
  | [] => ""
  | [s] => s
  | s :: rest => s ++ "/" ++ joinSep rest

/-- Go `strings.HasSuffix`, on the character lists of the strings. -/
def hasSuffixStr (s suf : String) : Bool := suf.data.isSuffixOf s.data

/-- Split rule-file content into lines, drop blank and `#` comment
lines, and compile the rest (walkrepo.go lines 87-99 and 196-208). -/
def parseLines (content : String) (domain : List String) : List Pattern :=
  (splitChar '\n' content.data).filterMap (fun line =>
    if line = [] then none
    else if line.head? = some '#' then none
    else some (parsePattern line domain))

/-- Embedding of `parseFilePatterns` (walkrepo.go lines 77-100 and
186-210): reject paths without the `.gitignore` suffix, then read the
file (`none` content models a read failure) and compile its lines. -/
def parseFilePatterns (path : String) (domain : List String) (content : Option String) :
    Except WalkError (List Pattern) :=
  if hasSuffixStr path ".gitignore" then
    match content with
    | none => .error (.ioErr path)
    | some c => .ok (parseLines c domain)
  else .error (.notGitignore path)

/-- The rule-file scan both revisions run first in each directory frame
(walkrepo.go lines 31-40 and 133-142): every entry named `.gitignore` is
parsed via `parseFilePatterns` and the results are concatenated in
listing order; a parse failure aborts with that error. -/
def scanRules (es : List Entry) (dom : List String) :
    List Event × Except WalkError (List Pattern) :=
  match es with
  | [] => ([], .ok [])
  | e :: rest =>
    if e.name = ".gitignore" then
      match parseFilePatterns (joinSep (dom ++ [e.name])) dom e.contentOpt with
      | .error err => ([], .error err)
      | .ok pats =>
        let r := scanRules rest dom
        match r.2 with
        | .error err => (Event.readRules (dom ++ [e.name]) :: r.1, .error err)
        | .ok rest2 => (Event.readRules (dom ++ [e.name]) :: r.1, .ok (pats ++ rest2))
    else scanRules rest dom

/-! ## Revision 2 of `WalkRepo` (walkrepo.go lines 113-183)

Each frame copies the inherited patterns, appends its own rule-file
patterns (`localPatterns`), matches every non-rule-file entry against
the components of its root-relative path, visits non-excluded entries,
honours `filepath.SkipDir` for directories, aborts on any other visitor
error, and recurses into non-excluded directories with the frame's
`localPatterns`. -/

mutual

/-- Processing of one non-rule-file entry of a frame whose working
pattern set is `mps` (the body of the loop at lines 146-177). -/
def walk2Entry (v : Visitor) (e : Entry) (dom : List String) (mps : List Pattern) :
    List Event × Option WalkError :=
  match e with
  | .file n _ =>
    let path := dom ++ [n]
    if matcherMatch mps path false then ([], none)
    else ([Event.visit path false none], v path false none)
  | .dir n ch =>
    let path := dom ++ [n]
    if matcherMatch mps path true then ([], none)
    else
      match v path true none with
      | some err =>
        if err = .skipDir then ([Event.visit path true none], none)
        else ([Event.visit path true none], some err)
      | none =>
        let scan := scanRules ch path
        match scan.2 with
        | .error err => (Event.visit path true none :: Event.openDir path :: scan.1, some err)
        | .ok newPats =>
          let r := walk2Entries v ch path (mps ++ newPats)
          (Event.visit path true none :: Event.openDir path :: (scan.1 ++ r.1), r.2)

/-- The entry loop of a frame: rule files are skipped, the first
aborting entry stops the loop and its error is returned. -/
def walk2Entries (v : Visitor) (es : List Entry) (dom : List String) (mps : List Pattern) :
    List Event × Option WalkError :=
  match es with
  | [] => ([], none)
  | e :: rest =>
    if e.name = ".gitignore" then walk2Entries v rest dom mps
    else
      let r := walk2Entry v e dom mps
      match r.2 with
      | some err => (r.1, some err)
      | none =>
        let r2 := walk2Entries v rest dom mps
        (r.1 ++ r2.1, r2.2)

end

/-- Revision 2 `WalkRepo`: the root frame, starting from an empty
inherited pattern set and the empty relative path. -/
def runWalk2 (v : Visitor) (root : List Entry) : List Event × Option WalkError :=
  let scan := scanRules root []
  match scan.2 with
  | .error err => (Event.openDir [] :: scan.1, some err)
  | .ok pats =>
    let r := walk2Entries v root [] pats
    (Event.openDir [] :: (scan.1 ++ r.1), r.2)

/-! ## Revision 1 of `WalkRepo` (walkrepo.go lines 13-74)

One shared pattern slice `ps` grows for the whole walk (appends made
inside a subtree stay visible to later siblings and ancestors), and
each entry is matched with `matcher.Match(domain, file.IsDir())` — the
relative path of the entry's *parent directory*, not of the entry.  The
shared slice is modelled by threading the pattern list through every
call and returning its final value. -/

mutual

/-- Processing of one non-rule-file entry in revision 1 (the loop body
at lines 43-68); returns the events, the updated shared pattern list,
and the abort error if any. -/
def walk1Entry (v : Visitor) (e : Entry) (dom : List String) (ps : List Pattern) :
    List Event × List Pattern × Option WalkError :=
  match e with
  | .file n _ =>
    if matcherMatch ps dom false then ([], ps, none)
    else
      let path := dom ++ [n]
      ([Event.visit path false none], ps, v path false none)
  | .dir n ch =>
    if matcherMatch ps dom true then ([], ps, none)
    else
      let path := dom ++ [n]
      match v path true none with
      | some err =>
        if err = .skipDir then ([Event.visit path true none], ps, none)
        else ([Event.visit path true none], ps, some err)
      | none =>
        let scan := scanRules ch path
        match scan.2 with
        | .error err =>
          (Event.visit path true none :: Event.openDir path :: scan.1, ps, some err)
        | .ok newPats =>
          let r := walk1Entries v ch path (ps ++ newPats)
          (Event.visit path true none :: Event.openDir path :: (scan.1 ++ r.1),
            r.2.1, r.2.2)

/-- The entry loop of a revision-1 frame, threading the shared pattern
list left to right. -/
def walk1Entries (v : Visitor) (es : List Entry) (dom : List String) (ps : List Pattern) :
    List Event × List Pattern × Option WalkError :=
  match es with
  | [] => ([], ps, none)
  | e :: rest =>
    if e.name = ".gitignore" then walk1Entries v rest dom ps
    else
      let r := walk1Entry v e dom ps
      match r.2.2 with
      | some err => (r.1, r.2.1, some err)
      | none =>
        let r2 := walk1Entries v rest dom r.2.1
        (r.1 ++ r2.1, r2.2.1, r2.2.2)

end

/-- Revision 1 `WalkRepo`: the root frame; the shared pattern list
starts empty and the final value is discarded, as in the Go code. -/
def runWalk1 (v : Visitor) (root : List Entry) : List Event × Option WalkError :=
  let scan := scanRules root []
  match scan.2 with
  | .error err => (Event.openDir [] :: scan.1, some err)
  | .ok pats =>
    let r := walk1Entries v root [] pats
    (Event.openDir [] :: (scan.1 ++ r.1), r.2.2)

/-- The paths at which the visitor was invoked, in order. -/
def visitLog (r : List Event × Option WalkError) : List (List String) :=
  r.1.filterMap (fun ev =>
    match ev with
    | .visit p _ _ => some p
    | _ => none)

/-- A visitor that only records (always continues). -/
def recV : Visitor := fun _ _ _ => none

/-- Combined induction over the nested `Entry` / `List Entry`
structure, proved by strong induction on sizes. -/
theorem entry_mutual_ind (P : Entry → Prop) (Q : List Entry → Prop)
    (hfile : ∀ n c, P (Entry.file n c))
    (hdir : ∀ n ch, Q ch → P (Entry.dir n ch))
    (hnil : Q [])
    (hcons : ∀ e rest, P e → Q rest → Q (e :: rest)) :
    (∀ e, P e) ∧ (∀ es, Q es) := by
  have key : ∀ N : Nat, (∀ e, sizeOf e ≤ N → P e) ∧ (∀ es : List Entry, sizeOf es ≤ N → Q es) := by
    intro N
    induction N with
    | zero =>
      constructor
      · intro e he
        cases e <;> simp at he
      · intro es hes
        cases es <;> simp at hes
    | succ n ih =>
      constructor
      · intro e he
        match e with
        | .file nm c => exact hfile nm c
        | .dir nm ch =>
          refine hdir nm ch (ih.2 ch ?_)
          simp at he
          omega
      · intro es hes
        match es with
        | [] => exact hnil
        | e :: rest =>
          refine hcons e rest (ih.1 e ?_) (ih.2 rest ?_) <;> (simp at hes; omega)
  exact ⟨fun e => (key (sizeOf e)).1 e le_rfl, fun es => (key (sizeOf es)).2 es le_rfl⟩

/-! ## Claim C1: last matching pattern decides -/

/-- The reverse scan of `matcherMatch` computes exactly the decision of
the last matching pattern of the list. -/
theorem lastDecision_eq (path : List String) (d : Bool) :
    ∀ ps : List Pattern,
      lastDecision path d ps = (ps.filterMap (patternDecision path d)).getLast? := by
  intro ps
  induction ps with
  | nil => rfl
  | cons p rest ih =>
    rw [lastDecision, ih, List.filterMap_cons]
    cases hf : patternDecision path d p with
    | none =>
      cases hl : (rest.filterMap (patternDecision path d)).getLast? <;> simp [hl]
    | some c =>
      rcases hrest : rest.filterMap (patternDecision path d) with _ | ⟨x, xs⟩
      · simp [hrest]
      · cases hy : (x :: xs).getLast? with
        | none => simp at hy
        | some y => simp [hy, List.getLast?_cons_cons]

/-- C1.  `Match` returns the decision of the last pattern in the ordered
set that matches the path (`some true` = excluded for a non-negated
pattern, `some false` = not excluded for a negated one), and `false`
(not excluded) when no pattern matches; in particular a path matched by
an earlier excluding pattern and by a later negated pattern that is the
last match of the set is not excluded. -/
theorem c1_match_last_pattern_wins :
    (∀ (ps : List Pattern) (path : List String) (d : Bool),
      matcherMatch ps path d
        = ((ps.filterMap (patternDecision path d)).getLast?).getD false)
    ∧ ∀ (ps₁ ps₂ ps₃ : List Pattern) (a b : Pattern) (path : List String) (d : Bool),
        a.eval path d = .excl →
        b.eval path d = .incl →
        (∀ r ∈ ps₃, r.eval path d = .noMatch) →
        matcherMatch (ps₁ ++ a :: (ps₂ ++ b :: ps₃)) path d = false := by
  constructor
  · intro ps path d
    rw [matcherMatch, lastDecision_eq]
  · intro ps₁ ps₂ ps₃ a b path d ha hb h3
    rw [matcherMatch, lastDecision_eq]
    have hfa : patternDecision path d a = some true := by rw [patternDecision, ha]
    have hfb : patternDecision path d b = some false := by rw [patternDecision, hb]
    have h30 : ps₃.filterMap (patternDecision path d) = [] := by
      rw [List.filterMap_eq_nil_iff]
      intro r hr
      rw [patternDecision, h3 r hr]
    rw [List.filterMap_append, List.filterMap_cons, hfa, List.filterMap_append,
      List.filterMap_cons, hfb, h30]
    have hassoc :
        ps₁.filterMap (patternDecision path d) ++
            true :: (ps₂.filterMap (patternDecision path d) ++ [false])
          = (ps₁.filterMap (patternDecision path d) ++
              true :: ps₂.filterMap (patternDecision path d)) ++ [false] := by
      simp
    rw [hassoc, List.getLast?_concat]
    rfl

/-- Witness for C1: a concrete two-pattern set (an excluding `*.log`
followed by a negated `!x.log`) leaves `x.log` not excluded. -/
theorem c1_witness :
    matcherMatch [parsePattern "*.log".data [], parsePattern "!x.log".data []]
      ["x.log"] false = false :=
  c1_match_last_pattern_wins.2 [] [] []
    (parsePattern "*.log".data []) (parsePattern "!x.log".data [])
    ["x.log"] false (by decide) (by decide) (by intro r hr; simp at hr)

/-! ## Claim C2: the concrete `*.log` / `!error.log` scenario -/

/-- Scenario C of the spec: root rule file `*.log`, subdirectory `logs`
with rule file `!error.log` and the plain files `debug.log`,
`error.log`. -/
def treeC : List Entry :=
  [ .file ".gitignore" "*.log",
    .dir "logs"
      [ .file ".gitignore" "!error.log",
        .file "debug.log" "debug", .file "error.log" "err" ] ]

/-- C2.  Walking scenario C with revision 2 of `WalkRepo` invokes the
visitor exactly for `logs` and `logs/error.log`, and never for
`logs/debug.log`. -/
theorem c2_scenario_c :
    visitLog (runWalk2 recV treeC) = [["logs"], ["logs", "error.log"]]
    ∧ ["logs", "debug.log"] ∉ visitLog (runWalk2 recV treeC) := by
  constructor
  · decide
  · decide

/-! ## Claim C5: the two revisions of `WalkRepo` are not equivalent -/

/-- A one-rule tree: the root rule file excludes `a.txt`, and `a.txt`
exists.  Revision 2 excludes it; revision 1 matches the pattern against
the root's own (empty) relative path, so nothing ever matches and
`a.txt` is visited. -/
def treeE : List Entry :=
  [ .file ".gitignore" "a.txt", .file "a.txt" "" ]

/-- C5 counterexample: on `treeE`, with a visitor that just records, the
two revisions of `WalkRepo` invoke the visitor on different path sets,
so they are not behaviorally equivalent. -/
theorem c5_counterexample :
    visitLog (runWalk1 recV treeE) ≠ visitLog (runWalk2 recV treeE) := by
  decide

mutual

/-- No entry of the tree rooted at this entry is named `.gitignore`. -/
def Entry.plain : Entry → Bool
  | .file n _ => n != ".gitignore"
  | .dir n ch => (n != ".gitignore") && plainList ch

/-- No entry of any of these trees is named `.gitignore`. -/
def plainList : List Entry → Bool
  | [] => true
  | e :: rest => e.plain && plainList rest

end

theorem Entry.plain_name {e : Entry} (h : e.plain = true) : e.name ≠ ".gitignore" := by
  cases e with
  | file n c => simpa [Entry.plain, Entry.name] using h
  | dir n ch =>
    simp [Entry.plain] at h
    simpa [Entry.name] using h.1

/-- On a listing with no `.gitignore` entries the rule-file scan finds
nothing. -/
theorem scan_plain (es : List Entry) (dom : List String) (h : plainList es = true) :
    scanRules es dom = ([], Except.ok []) := by
  induction es with
  | nil => rfl
  | cons e rest ih =>
    simp [plainList] at h
    rw [scanRules, if_neg (by simpa using Entry.plain_name h.1)]
    exact ih h.2

/-- The empty pattern set never excludes anything. -/
theorem matcherMatch_nil (path : List String) (d : Bool) :
    matcherMatch [] path d = false := rfl

/-- Core of the amended C5: on rule-file-free trees, with the shared
pattern list still empty, every step of revision 1 produces the same
events and result as revision 2 and leaves the pattern list empty. -/
theorem walk1_eq_walk2_plain :
    (∀ e : Entry, ∀ (v : Visitor) (dom : List String), e.plain = true →
      walk1Entry v e dom []
        = ((walk2Entry v e dom []).1, [], (walk2Entry v e dom []).2))
    ∧ ∀ es : List Entry, ∀ (v : Visitor) (dom : List String), plainList es = true →
      walk1Entries v es dom []
        = ((walk2Entries v es dom []).1, [], (walk2Entries v es dom []).2) := by
  refine entry_mutual_ind _ _ ?_ ?_ ?_ ?_
  · intro n c v dom _
    simp [walk1Entry, walk2Entry, matcherMatch_nil]
  · intro n ch ihch v dom hp
    simp [Entry.plain] at hp
    rw [walk1Entry, walk2Entry]
    simp only [matcherMatch_nil, if_false, Bool.false_eq_true]
    cases hv : v (dom ++ [n]) true none with
    | some err =>
      by_cases herr : err = WalkError.skipDir <;> simp [hv, herr]
    | none =>
      simp only [hv]
      rw [scan_plain ch (dom ++ [n]) hp.2]
      simp only [List.append_nil]
      rw [ihch v (dom ++ [n]) hp.2]
  · intro v dom _
    rfl
  · intro e rest ihe ihrest v dom hp
    simp [plainList] at hp
    rw [walk1Entries, walk2Entries]
    by_cases hn : e.name = ".gitignore"
    · exact absurd hn (Entry.plain_name hp.1)
    · rw [if_neg hn, if_neg hn]
      rw [ihe v dom hp.1]
      cases h2 : (walk2Entry v e dom []).2 with
      | some err => simp [h2]
      | none =>
        simp only [h2]
        rw [ihrest v dom hp.2]

/-- C5 amended.  The two definitions of `WalkRepo` are not behaviorally
equivalent in general (see `c5_counterexample`); they are equivalent on
every tree containing no entry named `.gitignore`: both produce the same
events (hence the same visitor invocations) and the same result for
every visitor. -/
theorem c5_amended (root : List Entry) (v : Visitor) (h : plainList root = true) :
    runWalk1 v root = runWalk2 v root := by
  rw [runWalk1, runWalk2, scan_plain root [] h]
  simp only
  rw [(walk1_eq_walk2_plain).2 root v [] h]

/-- Witness for the amended C5 on a small rule-file-free tree. -/
theorem c5_witness :
    runWalk1 recV [Entry.dir "d" [Entry.file "a" "x"]]
      = runWalk2 recV [Entry.dir "d" [Entry.file "a" "x"]] :=
  c5_amended [Entry.dir "d" [Entry.file "a" "x"]] recV (by decide)

/-! ## Claim C4: an excluded entry is pruned entirely -/

/-- Every event the rule-file scan emits is the read of this
directory's own rule file. -/
theorem scan_events (es : List Entry) (dom : List String) :
    ∀ ev ∈ (scanRules es dom).1, Event.path ev = dom ++ [".gitignore"] := by
  induction es with
  | nil => intro ev h; simp [scanRules] at h
  | cons e rest ih =>
    intro ev h
    rw [scanRules] at h
    by_cases hn : e.name = ".gitignore"
    · rw [if_pos hn] at h
      cases hp : parseFilePatterns (joinSep (dom ++ [e.name])) dom e.contentOpt with
      | error err => rw [hp] at h; simp at h
      | ok pats =>
        rw [hp] at h
        cases hr : (scanRules rest dom).2 with
        | error err =>
          simp only [hr] at h
          simp only [List.mem_cons] at h
          rcases h with h | h
          · subst h; simp [Event.path, hn]
          · exact ih ev h
        | ok rest2 =>
          simp only [hr] at h
          simp only [List.mem_cons] at h
          rcases h with h | h
          · subst h; simp [Event.path, hn]
          · exact ih ev h
    · rw [if_neg hn] at h
      exact ih ev h

/-- Every event produced while processing an entry lies at or below that
entry's path, and every event of a frame's entry loop lies at or below
the frame's directory. -/
theorem walk2_events_below :
    (∀ e : Entry, ∀ (v : Visitor) (dom : List String) (mps : List Pattern),
      ∀ ev ∈ (walk2Entry v e dom mps).1, (dom ++ [e.name]) <+: Event.path ev)
    ∧ ∀ es : List Entry, ∀ (v : Visitor) (dom : List String) (mps : List Pattern),
      ∀ ev ∈ (walk2Entries v es dom mps).1, dom <+: Event.path ev := by
  refine entry_mutual_ind _ _ ?_ ?_ ?_ ?_
  · intro n c v dom mps ev h
    rw [walk2Entry] at h
    by_cases hm : matcherMatch mps (dom ++ [n]) false = true
    · rw [if_pos hm] at h; simp at h
    · rw [if_neg hm] at h
      simp only [List.mem_singleton] at h
      subst h
      simp [Event.path, Entry.name]
  · intro n ch ihch v dom mps ev h
    rw [walk2Entry] at h
    by_cases hm : matcherMatch mps (dom ++ [n]) true = true
    · rw [if_pos hm] at h; simp at h
    · rw [if_neg hm] at h
      have hvis : Event.path (Event.visit (dom ++ [n]) true none) = dom ++ [n] := rfl
      cases hv : v (dom ++ [n]) true none with
      | some err =>
        rw [hv] at h
        by_cases herr : err = WalkError.skipDir <;>
          · rw [show Entry.name (Entry.dir n ch) = n from rfl]
            simp [herr] at h
            subst h
            simp [Event.path]
      | none =>
        rw [hv] at h
        rw [show Entry.name (Entry.dir n ch) = n from rfl]
        cases hs : (scanRules ch (dom ++ [n])).2 with
        | error err =>
          simp only [hs] at h
          simp only [List.mem_cons] at h
          rcases h with h | h | h
          · subst h; simp [Event.path]
          · subst h; simp [Event.path]
          · rw [scan_events ch (dom ++ [n]) ev h]
            exact ⟨[".gitignore"], by simp⟩
        | ok newPats =>
          simp only [hs] at h
          simp only [List.mem_cons, List.mem_append] at h
          rcases h with h | h | h | h
          · subst h; simp [Event.path]
          · subst h; simp [Event.path]
          · rw [scan_events ch (dom ++ [n]) ev h]
            exact ⟨[".gitignore"], by simp⟩
          · exact ihch v (dom ++ [n]) (mps ++ newPats) ev h
  · intro v dom mps ev h
    simp [walk2Entries] at h
  · intro e rest ihe ihrest v dom mps ev h
    rw [walk2Entries] at h
    by_cases hn : e.name = ".gitignore"
    · rw [if_pos hn] at h
      exact ihrest v dom mps ev h
    · rw [if_neg hn] at h
      have hpre : dom <+: dom ++ [e.name] := List.prefix_append dom [e.name]
      cases h2 : (walk2Entry v e dom mps).2 with
      | some err =>
        simp only [h2] at h
        exact hpre.trans (ihe v dom mps ev h)
      | none =>
        simp only [h2] at h
        simp only [List.mem_append] at h
        rcases h with h | h
        · exact hpre.trans (ihe v dom mps ev h)
        · exact ihrest v dom mps ev h

/-- Two distinct sibling names give incomparable entry paths. -/
theorem below_ne (dom : List String) (n₁ n₂ : String) (hne : n₁ ≠ n₂)
    (p : List String) (h1 : dom ++ [n₁] <+: p) : ¬ (dom ++ [n₂] <+: p) := by
  intro h2
  have h3 : (dom ++ [n₂]) <+: (dom ++ [n₁]) :=
    List.prefix_of_prefix_length_le h2 h1 (by simp)
  have h4 : dom ++ [n₂] = dom ++ [n₁] := h3.eq_of_length (by simp)
  have h5 : n₂ = n₁ := by simpa using h4
  exact hne h5.symm

/-- If no entry of the listing carries a given name, no event of the
entry loop lies at or below the corresponding entry path. -/
theorem walk2Entries_no_foreign (v : Visitor) (nm : String) :
    ∀ (es : List Entry) (dom : List String) (mps : List Pattern),
      (∀ e ∈ es, e.name ≠ nm) →
      ∀ ev ∈ (walk2Entries v es dom mps).1, ¬ (dom ++ [nm]) <+: Event.path ev := by
  intro es
  induction es with
  | nil => intro dom mps _ ev h; simp [walk2Entries] at h
  | cons e rest ih =>
    intro dom mps hall ev h
    rw [walk2Entries] at h
    by_cases hn : e.name = ".gitignore"
    · rw [if_pos hn] at h
      exact ih dom mps (fun x hx => hall x (List.mem_cons_of_mem e hx)) ev h
    · rw [if_neg hn] at h
      have hename : e.name ≠ nm := hall e (List.mem_cons_self e rest)
      cases h2 : (walk2Entry v e dom mps).2 with
      | some err =>
        simp only [h2] at h
        exact below_ne dom e.name nm hename _ (walk2_events_below.1 e v dom mps ev h)
      | none =>
        simp only [h2] at h
        simp only [List.mem_append] at h
        rcases h with h | h
        · exact below_ne dom e.name nm hename _ (walk2_events_below.1 e v dom mps ev h)
        · exact ih dom mps (fun x hx => hall x (List.mem_cons_of_mem e hx)) ev h

/-- C4.  In any frame of revision 2 whose working pattern set excludes
an entry `e` (a non-rule-file member of the listing, with sibling names
distinct as on a real filesystem), the entry loop emits no event at or
below `e`'s path: `e` is never visited and, if it is a directory, it is
never opened, no rule file at or below it is ever read, and nothing
beneath it is visited — even if a deeper rule file would have
re-included something.  Every visit, directory open, or rule-file read
of a whole walk is emitted by some frame's entry loop, so the property
covers the entire traversal. -/
theorem c4_excluded_pruned (v : Visitor) :
    ∀ (es : List Entry) (dom : List String) (mps : List Pattern) (e : Entry),
      e ∈ es → e.name ≠ ".gitignore" →
      (es.map Entry.name).Nodup →
      matcherMatch mps (dom ++ [e.name]) e.isDir = true →
      ∀ ev ∈ (walk2Entries v es dom mps).1, ¬ (dom ++ [e.name]) <+: Event.path ev := by
  intro es
  induction es with
  | nil => intro dom mps e he; exact absurd he (List.not_mem_nil e)
  | cons h rest ih =>
    intro dom mps e he hname hnodup hexcl ev hev
    rw [List.map_cons, List.nodup_cons] at hnodup
    rcases List.mem_cons.mp he with rfl | hmem
    · rw [walk2Entries, if_neg hname] at hev
      have hr : walk2Entry v e dom mps = ([], none) := by
        cases e with
        | file n c =>
          rw [walk2Entry, if_pos (by simpa [Entry.isDir] using hexcl)]
        | dir n ch =>
          rw [walk2Entry, if_pos (by simpa [Entry.isDir] using hexcl)]
      simp only [hr, List.nil_append] at hev
      refine walk2Entries_no_foreign v e.name rest dom mps ?_ ev hev
      intro x hx hxn
      exact hnodup.1 (hxn ▸ List.mem_map_of_mem Entry.name hx)
    · rw [walk2Entries] at hev
      by_cases hn : h.name = ".gitignore"
      · rw [if_pos hn] at hev
        exact ih dom mps e hmem hname hnodup.2 hexcl ev hev
      · rw [if_neg hn] at hev
        have hhe : h.name ≠ e.name := by
          intro hx
          exact hnodup.1 (hx ▸ List.mem_map_of_mem Entry.name hmem)
        cases h2 : (walk2Entry v h dom mps).2 with
        | some err =>
          simp only [h2] at hev
          exact below_ne dom h.name e.name hhe _ (walk2_events_below.1 h v dom mps ev hev)
        | none =>
          simp only [h2] at hev
          simp only [List.mem_append] at hev
          rcases hev with hev | hev
          · exact below_ne dom h.name e.name hhe _ (walk2_events_below.1 h v dom mps ev hev)
          · exact ih dom mps e hmem hname hnodup.2 hexcl ev hev

/-- Witness for C4: with working set `{a}` over the listing `a`, `b`,
the excluded entry `a` contributes nothing; the only event is the visit
of `b`, which is not at or below `a`. -/
theorem c4_witness :
    ¬ (["a"] <+: Event.path (Event.visit ["b"] false none)) :=
  c4_excluded_pruned recV [Entry.file "a" "", Entry.file "b" ""] []
    [parsePattern "a".data []] (Entry.file "a" "")
    (List.mem_cons_self _ _) (by decide) (by decide) (by decide)
    (Event.visit ["b"] false none) (by decide)

/-! ## Claim C3: rules inside a subdirectory are invisible outside it -/

mutual

/-- No directory of the tree rooted at this entry is named
`.gitignore` (on a real filesystem a rule file is a plain file; a
directory of that name would make `ReadFile` fail and abort the walk). -/
def Entry.goodDirs : Entry → Bool
  | .file _ _ => true
  | .dir n ch => (n != ".gitignore") && goodDirsList ch

/-- `Entry.goodDirs` for every tree of the listing. -/
def goodDirsList : List Entry → Bool
  | [] => true
  | e :: rest => e.goodDirs && goodDirsList rest

end

theorem goodDirsList_mem : ∀ {es : List Entry}, goodDirsList es = true →
    ∀ e ∈ es, e.goodDirs = true := by
  intro es
  induction es with
  | nil => intro _ e he; exact absurd he (List.not_mem_nil e)
  | cons x rest ih =>
    intro h e he
    rw [goodDirsList, Bool.and_eq_true] at h
    rcases List.mem_cons.mp he with rfl | hmem
    · exact h.1
    · exact ih h.2 e hmem

theorem goodDirsList_of_all : ∀ {es : List Entry},
    (∀ e ∈ es, e.goodDirs = true) → goodDirsList es = true := by
  intro es
  induction es with
  | nil => intro _; rfl
  | cons x rest ih =>
    intro h
    rw [goodDirsList, Bool.and_eq_true]
    exact ⟨h x (List.mem_cons_self x rest), ih (fun e he => h e (List.mem_cons_of_mem x he))⟩

theorem goodDirsList_filter (p : Entry → Bool) {es : List Entry}
    (h : goodDirsList es = true) : goodDirsList (es.filter p) = true :=
  goodDirsList_of_all (fun e he => goodDirsList_mem h e (List.mem_filter.mp he).1)

/-- A suffix of the second summand is a suffix of an append. -/
theorem hasSuffixStr_append (a b suf : String) (h : hasSuffixStr b suf = true) :
    hasSuffixStr (a ++ b) suf = true := by
  rw [hasSuffixStr, List.isSuffixOf_iff_suffix] at h ⊢
  rw [String.data_append]
  exact h.trans (List.suffix_append a.data b.data)

/-- Every rule-file path the walker builds ends in `.gitignore`, so the
suffix check of `parseFilePatterns` passes there. -/
theorem joinSep_gitignore_suffix :
    ∀ dom : List String, hasSuffixStr (joinSep (dom ++ [".gitignore"])) ".gitignore" = true := by
  intro dom
  induction dom with
  | nil => decide
  | cons d rest ih =>
    rcases hx : rest ++ [".gitignore"] with _ | ⟨x, xs⟩
    · exact absurd hx (by simp)
    · have hj : joinSep ((d :: rest) ++ [".gitignore"]) = d ++ "/" ++ joinSep (x :: xs) := by
        rw [List.cons_append, hx]
        rfl
      rw [hj, ← hx]
      exact hasSuffixStr_append (d ++ "/") _ _ ih

/-- On a listing whose rule-file entries are all plain files, the scan
succeeds. -/
theorem scan_ok (es : List Entry) (dom : List String) (h : goodDirsList es = true) :
    ∃ pats, (scanRules es dom).2 = Except.ok pats := by
  induction es with
  | nil => exact ⟨[], rfl⟩
  | cons e rest ih =>
    rw [goodDirsList, Bool.and_eq_true] at h
    rw [scanRules]
    by_cases hn : e.name = ".gitignore"
    · rw [if_pos hn]
      obtain ⟨c, hc⟩ : ∃ c, e.contentOpt = some c := by
        cases e with
        | file nm c => exact ⟨c, rfl⟩
        | dir nm ch =>
          exfalso
          have hnm : nm = ".gitignore" := hn
          have := h.1
          rw [Entry.goodDirs, hnm] at this
          simp at this
      obtain ⟨pats, hp⟩ := ih h.2
      simp only [hn, hc, parseFilePatterns, joinSep_gitignore_suffix dom, if_true, hp]
      exact ⟨_, rfl⟩
    · rw [if_neg hn]
      exact ih h.2

/-- With a visitor that always continues and no directory named
`.gitignore`, revision 2 never aborts. -/
theorem walk2_pure_no_error (v : Visitor) (hv : ∀ p d a, v p d a = none) :
    (∀ e : Entry, ∀ (dom : List String) (mps : List Pattern),
      e.goodDirs = true → (walk2Entry v e dom mps).2 = none)
    ∧ ∀ es : List Entry, ∀ (dom : List String) (mps : List Pattern),
      goodDirsList es = true → (walk2Entries v es dom mps).2 = none := by
  refine entry_mutual_ind _ _ ?_ ?_ ?_ ?_
  · intro n c dom mps _
    rw [walk2Entry]
    by_cases hm : matcherMatch mps (dom ++ [n]) false = true
    · rw [if_pos hm]
    · rw [if_neg hm]
      exact hv _ _ _
  · intro n ch ihch dom mps hgd
    rw [Entry.goodDirs, Bool.and_eq_true] at hgd
    rw [walk2Entry]
    by_cases hm : matcherMatch mps (dom ++ [n]) true = true
    · rw [if_pos hm]
    · rw [if_neg hm, hv (dom ++ [n]) true none]
      obtain ⟨pats, hp⟩ := scan_ok ch (dom ++ [n]) hgd.2
      simp only [hp]
      exact ihch (dom ++ [n]) (mps ++ pats) hgd.2
  · intro dom mps _
    rfl
  · intro e rest ihe ihrest dom mps hgd
    rw [goodDirsList, Bool.and_eq_true] at hgd
    rw [walk2Entries]
    by_cases hn : e.name = ".gitignore"
    · rw [if_pos hn]
      exact ihrest dom mps hgd.2
    · rw [if_neg hn]
      simp only [ihe dom mps hgd.1]
      exact ihrest dom mps hgd.2

/-- Filtering away the events at or below an entry removes everything
that entry's processing produced. -/
theorem filter_below_nil (dom : List String) (n : String) (l : List Event)
    (h : ∀ ev ∈ l, (dom ++ [n]) <+: Event.path ev) :
    l.filter (fun ev => !((dom ++ [n]).isPrefixOf (Event.path ev))) = [] := by
  rw [List.filter_eq_nil_iff]
  intro ev hev
  simp only [Bool.not_eq_true', Bool.not_eq_false]
  exact List.isPrefixOf_iff_prefix.mpr (h ev hev)

/-- C3.  In revision 2, the contents of a subdirectory `D` — in
particular every rule file found inside `D` — never change what happens
outside `D`: for a recording visitor, replacing `D`'s listing by any
other listing (e.g. the same listing with `D`'s rule file removed)
leaves every event not at or below `D` — all sibling and ancestor
visits, directory opens, and rule-file reads — and the frame's result
unchanged.  Each frame's pattern set is its parent's copy plus its own
patterns, so sibling directories of `D` and ancestors of `D` see
identical decisions. -/
theorem c3_domain_isolation (v : Visitor) (hv : ∀ p d a, v p d a = none)
    (n : String) (es es' : List Entry)
    (hgood : goodDirsList es = true) (hgood' : goodDirsList es' = true) :
    ∀ (pre post : List Entry) (dom : List String) (mps : List Pattern),
      ((walk2Entries v (pre ++ Entry.dir n es :: post) dom mps).1.filter
          (fun ev => !((dom ++ [n]).isPrefixOf (Event.path ev))))
        = ((walk2Entries v (pre ++ Entry.dir n es' :: post) dom mps).1.filter
            (fun ev => !((dom ++ [n]).isPrefixOf (Event.path ev))))
      ∧ (walk2Entries v (pre ++ Entry.dir n es :: post) dom mps).2
        = (walk2Entries v (pre ++ Entry.dir n es' :: post) dom mps).2 := by
  intro pre
  induction pre with
  | nil =>
    intro post dom mps
    simp only [List.nil_append]
    rw [walk2Entries, walk2Entries]
    by_cases hn : (Entry.dir n es).name = ".gitignore"
    · rw [if_pos hn, if_pos (show (Entry.dir n es').name = ".gitignore" from hn)]
      exact ⟨rfl, rfl⟩
    · rw [if_neg hn, if_neg (show ¬ (Entry.dir n es').name = ".gitignore" from hn)]
      have hnn : n ≠ ".gitignore" := hn
      have hgA : (Entry.dir n es).goodDirs = true := by
        rw [Entry.goodDirs, Bool.and_eq_true, bne_iff_ne]
        exact ⟨hnn, hgood⟩
      have hgB : (Entry.dir n es').goodDirs = true := by
        rw [Entry.goodDirs, Bool.and_eq_true, bne_iff_ne]
        exact ⟨hnn, hgood'⟩
      have hA := (walk2_pure_no_error v hv).1 (Entry.dir n es) dom mps hgA
      have hB := (walk2_pure_no_error v hv).1 (Entry.dir n es') dom mps hgB
      simp only [hA, hB]
      constructor
      · rw [List.filter_append, List.filter_append,
          filter_below_nil dom n _ (fun ev h => walk2_events_below.1 (Entry.dir n es) v dom mps ev h),
          filter_below_nil dom n _ (fun ev h => walk2_events_below.1 (Entry.dir n es') v dom mps ev h)]
      · trivial
  | cons p pre2 ih =>
    intro post dom mps
    simp only [List.cons_append]
    rw [walk2Entries, walk2Entries]
    by_cases hn : p.name = ".gitignore"
    · rw [if_pos hn, if_pos hn]
      exact ih post dom mps
    · rw [if_neg hn, if_neg hn]
      cases h2 : (walk2Entry v p dom mps).2 with
      | some err =>
        simp [h2]
      | none =>
        simp only [h2]
        obtain ⟨h1, hsnd⟩ := ih post dom mps
        constructor
        · rw [List.filter_append, List.filter_append, h1]
        · exact hsnd

/-- Witness for C3: a sibling `z` of a directory `d` is visited the
same way whether or not `d` carries a rule file. -/
theorem c3_witness :
    ((walk2Entries recV
        ([] ++ Entry.dir "d" [Entry.file ".gitignore" "*"] :: [Entry.file "z" ""]) [] []).1.filter
        (fun ev => !((([] : List String) ++ ["d"]).isPrefixOf (Event.path ev))))
      = ((walk2Entries recV ([] ++ Entry.dir "d" [] :: [Entry.file "z" ""]) [] []).1.filter
          (fun ev => !((([] : List String) ++ ["d"]).isPrefixOf (Event.path ev)))) :=
  (c3_domain_isolation recV (fun _ _ _ => rfl) "d"
    [Entry.file ".gitignore" "*"] [] (by decide) (by decide)
    [] [Entry.file "z" ""] [] []).1

/-! ## Claims C6, C7, C9: visitor-returned errors and the skip signal -/

/-- Events contributed by the already-processed leading entries of a
frame's entry loop (rule files contribute nothing). -/
def preEvents (v : Visitor) : List Entry → List String → List Pattern → List Event
  | [], _, _ => []
  | e :: rest, dom, mps =>
    (if e.name = ".gitignore" then [] else (walk2Entry v e dom mps).1)
      ++ preEvents v rest dom mps

/-- Shared abort shape of the entry loop: once an entry's processing
returns an error, the loop stops right there — the events are those of
the leading entries plus the aborting entry's own, nothing of `post` is
matched or visited, and the error is returned unchanged. -/
theorem walk2Entries_abort (v : Visitor) :
    ∀ (pre : List Entry) (x : Entry) (post : List Entry)
      (dom : List String) (mps : List Pattern) (err : WalkError),
      (∀ e ∈ pre, e.name ≠ ".gitignore" → (walk2Entry v e dom mps).2 = none) →
      x.name ≠ ".gitignore" →
      (walk2Entry v x dom mps).2 = some err →
      walk2Entries v (pre ++ x :: post) dom mps
        = (preEvents v pre dom mps ++ (walk2Entry v x dom mps).1, some err) := by
  intro pre
  induction pre with
  | nil =>
    intro x post dom mps err hpre hx hx2
    simp only [List.nil_append]
    rw [walk2Entries, if_neg hx]
    simp only [hx2]
    rw [preEvents]
    simp
  | cons e rest ih =>
    intro x post dom mps err hpre hx hx2
    simp only [List.cons_append]
    rw [walk2Entries, preEvents]
    by_cases hn : e.name = ".gitignore"
    · rw [if_pos hn, if_pos hn]
      simp only [List.nil_append]
      exact ih x post dom mps err (fun e2 he2 => hpre e2 (List.mem_cons_of_mem e he2)) hx hx2
    · rw [if_neg hn, if_neg hn]
      have he2 : (walk2Entry v e dom mps).2 = none := hpre e (List.mem_cons_self e rest) hn
      simp only [he2]
      rw [ih x post dom mps err (fun e2 he2 => hpre e2 (List.mem_cons_of_mem e he2)) hx hx2]
      simp [List.append_assoc]

/-- C6.  If the visitor returns an error other than the skip-subtree
signal for a non-excluded entry `x` (after the leading entries of the
frame completed without error), the walk stops immediately: the frame's
event list ends with the visit of `x` — no recursion into `x`, nothing
of the remaining entries is matched or visited — and that exact error
value is returned; each enclosing frame propagates it unchanged (the
`some err` branch of the entry loop), so `WalkRepo` returns it to the
caller verbatim. -/
theorem c6_visitor_error_aborts (v : Visitor) (dom : List String) (mps : List Pattern)
    (pre : List Entry) (x : Entry) (post : List Entry) (err : WalkError)
    (hpre : ∀ e ∈ pre, e.name ≠ ".gitignore" → (walk2Entry v e dom mps).2 = none)
    (hxn : x.name ≠ ".gitignore")
    (hxm : matcherMatch mps (dom ++ [x.name]) x.isDir = false)
    (hverr : v (dom ++ [x.name]) x.isDir none = some err)
    (hns : err ≠ WalkError.skipDir) :
    walk2Entries v (pre ++ x :: post) dom mps
      = (preEvents v pre dom mps ++ [Event.visit (dom ++ [x.name]) x.isDir none],
          some err) := by
  have hx : walk2Entry v x dom mps
      = ([Event.visit (dom ++ [x.name]) x.isDir none], some err) := by
    cases x with
    | file n c =>
      rw [walk2Entry, if_neg (by simpa [Entry.isDir] using hxm)]
      simp only [Entry.name, Entry.isDir] at hverr ⊢
      rw [hverr]
    | dir n ch =>
      rw [walk2Entry, if_neg (by simpa [Entry.isDir] using hxm)]
      simp only [Entry.name, Entry.isDir] at hverr ⊢
      simp only [hverr]
      rw [if_neg hns]
  have := walk2Entries_abort v pre x post dom mps err hpre hxn (by rw [hx])
  rw [this, hx]

/-- C7.  When the visitor answers the skip-subtree signal on a
non-excluded directory entry, that entry contributes exactly its own
visit — the walker does not recurse into it — the loop continues with
the remaining entries unchanged, and the signal is not surfaced as an
error. -/
theorem c7_skipdir_prunes_dir (v : Visitor) (dom : List String) (mps : List Pattern)
    (n : String) (ch : List Entry) (rest : List Entry)
    (hn : n ≠ ".gitignore")
    (hm : matcherMatch mps (dom ++ [n]) true = false)
    (hv : v (dom ++ [n]) true none = some WalkError.skipDir) :
    walk2Entry v (Entry.dir n ch) dom mps
      = ([Event.visit (dom ++ [n]) true none], none)
    ∧ walk2Entries v (Entry.dir n ch :: rest) dom mps
      = (Event.visit (dom ++ [n]) true none :: (walk2Entries v rest dom mps).1,
          (walk2Entries v rest dom mps).2) := by
  have h1 : walk2Entry v (Entry.dir n ch) dom mps
      = ([Event.visit (dom ++ [n]) true none], none) := by
    rw [walk2Entry, if_neg (by simpa using hm)]
    simp [hv]
  refine ⟨h1, ?_⟩
  rw [walk2Entries, if_neg (show ¬ (Entry.dir n ch).name = ".gitignore" from hn)]
  simp only [h1, List.singleton_append]

/-- C9.  The skip-subtree signal returned for a plain (non-directory)
entry is not treated as a skip: the guard requires the entry to be a
directory, so the walk aborts right there and `filepath.SkipDir` itself
is returned as the error (propagated unchanged by enclosing frames, as
in C6). -/
theorem c9_skipdir_on_file_aborts (v : Visitor) (dom : List String) (mps : List Pattern)
    (pre : List Entry) (nm c : String) (post : List Entry)
    (hpre : ∀ e ∈ pre, e.name ≠ ".gitignore" → (walk2Entry v e dom mps).2 = none)
    (hn : nm ≠ ".gitignore")
    (hm : matcherMatch mps (dom ++ [nm]) false = false)
    (hv : v (dom ++ [nm]) false none = some WalkError.skipDir) :
    walk2Entries v (pre ++ Entry.file nm c :: post) dom mps
      = (preEvents v pre dom mps ++ [Event.visit (dom ++ [nm]) false none],
          some WalkError.skipDir) := by
  have hx : walk2Entry v (Entry.file nm c) dom mps
      = ([Event.visit (dom ++ [nm]) false none], some WalkError.skipDir) := by
    rw [walk2Entry, if_neg (by simpa using hm), hv]
  have := walk2Entries_abort v pre (Entry.file nm c) post dom mps WalkError.skipDir
    hpre hn (by rw [hx])
  rw [this, hx]

/-- A visitor that raises an error on the path `boom` and continues
elsewhere. -/
def vBoom : Visitor := fun p _ _ =>
  if p = ["boom"] then some (WalkError.userErr "E") else none

/-- Witness for C6: the loop visits `ok`, aborts at `boom` with the
visitor's error, and never reaches `z`. -/
theorem c6_witness :
    walk2Entries vBoom [Entry.file "ok" "", Entry.file "boom" "", Entry.file "z" ""] [] []
      = (preEvents vBoom [Entry.file "ok" ""] [] []
          ++ [Event.visit ["boom"] false none], some (WalkError.userErr "E")) :=
  c6_visitor_error_aborts vBoom [] [] [Entry.file "ok" ""] (Entry.file "boom" "")
    [Entry.file "z" ""] (WalkError.userErr "E")
    (by decide) (by decide) (by decide) (by decide) (by decide)

/-- A visitor that always answers the skip-subtree signal. -/
def vSkip : Visitor := fun _ _ _ => some WalkError.skipDir

/-- Witness for C7 on a concrete directory entry with one child and one
remaining sibling. -/
theorem c7_witness :
    walk2Entry vSkip (Entry.dir "d" [Entry.file "a" ""]) [] []
      = ([Event.visit ["d"] true none], none)
    ∧ walk2Entries vSkip (Entry.dir "d" [Entry.file "a" ""] :: [Entry.file "z" ""]) [] []
      = (Event.visit ["d"] true none :: (walk2Entries vSkip [Entry.file "z" ""] [] []).1,
          (walk2Entries vSkip [Entry.file "z" ""] [] []).2) :=
  c7_skipdir_prunes_dir vSkip [] [] "d" [Entry.file "a" ""] [Entry.file "z" ""]
    (by decide) (by decide) (by decide)

/-- Witness for C9: the skip signal on a plain file aborts the walk with
`skipDir` as the returned error. -/
theorem c9_witness :
    walk2Entries vSkip [Entry.file "f" ""] [] []
      = (preEvents vSkip [] [] [] ++ [Event.visit ["f"] false none],
          some WalkError.skipDir) :=
  c9_skipdir_on_file_aborts vSkip [] [] [] "f" "" []
    (by decide) (by decide) (by decide) (by decide)

/-! ## Claim C8: the non-rule-file guard of `parseFilePatterns` -/

/-- C8.  `parseFilePatterns` rejects every path that does not end in
`.gitignore` with its distinct error, without looking at the file
content; every rule-file path the walker builds (`dom ++ [".gitignore"]`
joined with `/`) passes the suffix check; and consequently the scan the
walker runs — its only route into `parseFilePatterns` — can never
produce that error. -/
theorem c8_parse_guard :
    (∀ (path : String) (dom : List String) (content : Option String),
      hasSuffixStr path ".gitignore" = false →
      parseFilePatterns path dom content = Except.error (WalkError.notGitignore path))
    ∧ (∀ dom : List String,
        hasSuffixStr (joinSep (dom ++ [".gitignore"])) ".gitignore" = true)
    ∧ ∀ (es : List Entry) (dom : List String) (s : String),
        (scanRules es dom).2 ≠ Except.error (WalkError.notGitignore s) := by
  refine ⟨?_, joinSep_gitignore_suffix, ?_⟩
  · intro path dom content h
    simp only [parseFilePatterns]
    rw [if_neg (by simp [h])]
  · intro es
    induction es with
    | nil =>
      intro dom s
      simp [scanRules]
    | cons e rest ih =>
      intro dom s
      rw [scanRules]
      by_cases hn : e.name = ".gitignore"
      · rw [if_pos hn, hn]
        cases hco : e.contentOpt with
        | none =>
          simp only [hco, parseFilePatterns, joinSep_gitignore_suffix dom, if_true]
          simp
        | some c =>
          simp only [hco, parseFilePatterns, joinSep_gitignore_suffix dom, if_true]
          cases hr : (scanRules rest dom).2 with
          | error err =>
            simp only [hr]
            have h2 := ih dom s
            rw [hr] at h2
            simpa using h2
          | ok pats =>
            simp only [hr]
            simp
      · rw [if_neg hn]
        exact ih dom s

/-- Witness for C8: a path without the suffix is rejected with the
distinct error even though readable content is supplied. -/
theorem c8_witness :
    parseFilePatterns "notes.txt" [] (some "a")
      = Except.error (WalkError.notGitignore "notes.txt") :=
  c8_parse_guard.1 "notes.txt" [] (some "a") (by decide)

/-! ## Claim C10: the visitor's error argument is always nil -/

/-- Whether an event is compatible with "the visitor never receives a
non-nil error argument". -/
def visitArgOk : Event → Bool
  | .visit _ _ a => a.isNone
  | _ => true

theorem scan_visitArgOk (es : List Entry) (dom : List String) :
    ∀ ev ∈ (scanRules es dom).1, visitArgOk ev = true := by
  induction es with
  | nil => intro ev h; simp [scanRules] at h
  | cons e rest ih =>
    intro ev h
    rw [scanRules] at h
    by_cases hn : e.name = ".gitignore"
    · rw [if_pos hn] at h
      cases hp : parseFilePatterns (joinSep (dom ++ [e.name])) dom e.contentOpt with
      | error err => rw [hp] at h; simp at h
      | ok pats =>
        rw [hp] at h
        cases hr : (scanRules rest dom).2 with
        | error err =>
          simp only [hr] at h
          rcases List.mem_cons.mp h with rfl | h
          · rfl
          · exact ih ev h
        | ok rest2 =>
          simp only [hr] at h
          rcases List.mem_cons.mp h with rfl | h
          · rfl
          · exact ih ev h
    · rw [if_neg hn] at h
      exact ih ev h

theorem walk2_visitArgOk :
    (∀ e : Entry, ∀ (v : Visitor) (dom : List String) (mps : List Pattern),
      ∀ ev ∈ (walk2Entry v e dom mps).1, visitArgOk ev = true)
    ∧ ∀ es : List Entry, ∀ (v : Visitor) (dom : List String) (mps : List Pattern),
      ∀ ev ∈ (walk2Entries v es dom mps).1, visitArgOk ev = true := by
  refine entry_mutual_ind _ _ ?_ ?_ ?_ ?_
  · intro n c v dom mps ev h
    rw [walk2Entry] at h
    by_cases hm : matcherMatch mps (dom ++ [n]) false = true
    · rw [if_pos hm] at h; simp at h
    · rw [if_neg hm] at h
      simp only [List.mem_singleton] at h
      subst h; rfl
  · intro n ch ihch v dom mps ev h
    rw [walk2Entry] at h
    by_cases hm : matcherMatch mps (dom ++ [n]) true = true
    · rw [if_pos hm] at h; simp at h
    · rw [if_neg hm] at h
      cases hv : v (dom ++ [n]) true none with
      | some err =>
        rw [hv] at h
        by_cases herr : err = WalkError.skipDir <;>
          · simp [herr] at h
            subst h; rfl
      | none =>
        rw [hv] at h
        cases hs : (scanRules ch (dom ++ [n])).2 with
        | error err =>
          simp only [hs] at h
          rcases List.mem_cons.mp h with rfl | h
          · rfl
          · rcases List.mem_cons.mp h with rfl | h
            · rfl
            · exact scan_visitArgOk ch (dom ++ [n]) ev h
        | ok newPats =>
          simp only [hs] at h
          rcases List.mem_cons.mp h with rfl | h
          · rfl
          · rcases List.mem_cons.mp h with rfl | h
            · rfl
            · rcases List.mem_append.mp h with h | h
              · exact scan_visitArgOk ch (dom ++ [n]) ev h
              · exact ihch v (dom ++ [n]) (mps ++ newPats) ev h
  · intro v dom mps ev h
    simp [walk2Entries] at h
  · intro e rest ihe ihrest v dom mps ev h
    rw [walk2Entries] at h
    by_cases hn : e.name = ".gitignore"
    · rw [if_pos hn] at h
      exact ihrest v dom mps ev h
    · rw [if_neg hn] at h
      cases h2 : (walk2Entry v e dom mps).2 with
      | some err =>
        simp only [h2] at h
        exact ihe v dom mps ev h
      | none =>
        simp only [h2] at h
        rcases List.mem_append.mp h with h | h
        · exact ihe v dom mps ev h
        · exact ihrest v dom mps ev h

theorem walk1_visitArgOk :
    (∀ e : Entry, ∀ (v : Visitor) (dom : List String) (ps : List Pattern),
      ∀ ev ∈ (walk1Entry v e dom ps).1, visitArgOk ev = true)
    ∧ ∀ es : List Entry, ∀ (v : Visitor) (dom : List String) (ps : List Pattern),
      ∀ ev ∈ (walk1Entries v es dom ps).1, visitArgOk ev = true := by
  refine entry_mutual_ind _ _ ?_ ?_ ?_ ?_
  · intro n c v dom ps ev h
    rw [walk1Entry] at h
    by_cases hm : matcherMatch ps dom false = true
    · rw [if_pos hm] at h; simp at h
    · rw [if_neg hm] at h
      simp only [List.mem_singleton] at h
      subst h; rfl
  · intro n ch ihch v dom ps ev h
    rw [walk1Entry] at h
    by_cases hm : matcherMatch ps dom true = true
    · rw [if_pos hm] at h; simp at h
    · rw [if_neg hm] at h
      cases hv : v (dom ++ [n]) true none with
      | some err =>
        simp only [hv] at h
        by_cases herr : err = WalkError.skipDir <;>
          · simp [herr] at h
            subst h; rfl
      | none =>
        simp only [hv] at h
        cases hs : (scanRules ch (dom ++ [n])).2 with
        | error err =>
          simp only [hs] at h
          rcases List.mem_cons.mp h with rfl | h
          · rfl
          · rcases List.mem_cons.mp h with rfl | h
            · rfl
            · exact scan_visitArgOk ch (dom ++ [n]) ev h
        | ok newPats =>
          simp only [hs] at h
          rcases List.mem_cons.mp h with rfl | h
          · rfl
          · rcases List.mem_cons.mp h with rfl | h
            · rfl
            · rcases List.mem_append.mp h with h | h
              · exact scan_visitArgOk ch (dom ++ [n]) ev h
              · exact ihch v (dom ++ [n]) (ps ++ newPats) ev h
  · intro v dom ps ev h
    simp [walk1Entries] at h
  · intro e rest ihe ihrest v dom ps ev h
    rw [walk1Entries] at h
    by_cases hn : e.name = ".gitignore"
    · rw [if_pos hn] at h
      exact ihrest v dom ps ev h
    · rw [if_neg hn] at h
      cases h2 : (walk1Entry v e dom ps).2.2 with
      | some err =>
        simp only [h2] at h
        exact ihe v dom ps ev h
      | none =>
        simp only [h2] at h
        rcases List.mem_append.mp h with h | h
        · exact ihe v dom ps ev h
        · exact ihrest v dom (walk1Entry v e dom ps).2.1 ev h

/-- C10.  In both revisions of `WalkRepo`, every visitor invocation
passes `nil` as the error argument: no per-entry error is ever
delivered through the visitor's `err` parameter. -/
theorem c10_visitor_gets_nil_error :
    ∀ (v : Visitor) (root : List Entry),
      ((runWalk2 v root).1.all visitArgOk) = true
      ∧ ((runWalk1 v root).1.all visitArgOk) = true := by
  intro v root
  constructor
  · rw [List.all_eq_true]
    intro ev hev
    rw [runWalk2] at hev
    cases hs : (scanRules root []).2 with
    | error err =>
      simp only [hs] at hev
      rcases List.mem_cons.mp hev with rfl | hev
      · rfl
      · exact scan_visitArgOk root [] ev hev
    | ok pats =>
      simp only [hs] at hev
      rcases List.mem_cons.mp hev with rfl | hev
      · rfl
      · rcases List.mem_append.mp hev with hev | hev
        · exact scan_visitArgOk root [] ev hev
        · exact walk2_visitArgOk.2 root v [] pats ev hev
  · rw [List.all_eq_true]
    intro ev hev
    rw [runWalk1] at hev
    cases hs : (scanRules root []).2 with
    | error err =>
      simp only [hs] at hev
      rcases List.mem_cons.mp hev with rfl | hev
      · rfl
      · exact scan_visitArgOk root [] ev hev
    | ok pats =>
      simp only [hs] at hev
      rcases List.mem_cons.mp hev with rfl | hev
      · rfl
      · rcases List.mem_append.mp hev with hev | hev
        · exact scan_visitArgOk root [] ev hev
        · exact walk1_visitArgOk.2 root v [] pats ev hev

end WalkRepo
